import Mathlib

/-!
# Connection pool (`connection-with-pool/benchmark_with_pool.go`)

A shallow embedding of the pool (`cPool`, `NewCPool`, `Get`, `Put`), of the
handle factory `newConn`, and of the request goroutines spawned by
`benchmarkWithPool`, followed by the properties established about them.

Conventions.
* A `*conn` is `Option conn`: `none` is the nil pointer, `some c` a live handle.
  The `db` field stands for the identity of the `*sql.DB` behind the handle.
* The mutex is not a field of the model: every block of code executed with
  `pool.mu` held is one atomic transition. The waiting loop of `Get` releases the
  lock between two checks, so other goroutines act between them.
* The goroutines of `benchmarkWithPool` are interleaved by a schedule, a list of
  goroutine indices. What they do outside the lock is split into its memory accesses:
  `connectionFailures++` and `successfulConnections++` are a load and a store.
* The outside world (the database driver, the outcome of `Exec`) is an oracle passed
  as a parameter, and so are the constants of the Go runtime that decide whether
  `make` accepts a capacity. Logging and durations are not modelled.
* Counters are `Nat`: they never exceed the number of requests, a Go `int`.
-/

namespace ConnPool

/-! ## Data model -/

/-- Go `type conn struct { db *sql.DB }`; `db` is the identity of the `*sql.DB`. -/
structure conn where
  db : Nat
deriving DecidableEq, Repr

/-- Go `*conn`: `none` is nil. -/
abbrev ConnPtr := Option conn

/-- Go `error` values that the program inspects: `err.Error() == "EOF"` or anything else. -/
inductive GoError where
  | eof
  | other (code : Nat)
deriving DecidableEq, Repr

/-- Ways in which the process aborts: the run-time panics that the modelled code can
raise, and the exit performed by `log.Fatalf` in `main`. -/
inductive Panic where
  | makesliceCapOutOfRange
  | nilPointerDereference
  | integerDivideByZero
  | logFatal
deriving DecidableEq, Repr

/-- Go `type cPool struct { conns []*conn; maxConn int; mu sync.Mutex }` (without `mu`). -/
structure cPool where
  conns : List ConnPtr
  maxConn : Int
deriving DecidableEq, Repr

/-- The two constants of the Go runtime that `make([]*conn, 0, cap)` depends on: the size
of a `*conn` in bytes and `runtime.maxAlloc`, the largest allocation the runtime accepts
(8 and 2^48 on linux/amd64). -/
structure GoRuntime where
  ptrSize : Nat
  maxAlloc : Nat

/-- The database driver as seen by `newConn`: the outcome of the k-th `sql.Open`
(`none` is an error, `some d` a fresh `*sql.DB`) and of the k-th `db.Ping`. -/
structure Driver where
  openResult : Nat → Option Nat
  pingOk : Nat → Bool

/-! ## The handle factory and the constructor -/

/-- Go `newConn()`, as its `calls`-th invocation: nil when `sql.Open` or `db.Ping`
fails, `&conn{db: db}` otherwise; also returns the incremented invocation count. -/
def newConn (d : Driver) (calls : Nat) : ConnPtr × Nat :=
  match d.openResult calls with
  | none => (none, calls + 1)
  | some db => if d.pingOk calls then (some ⟨db⟩, calls + 1) else (none, calls + 1)

/-- The loop `for i := 0; i < maxConn; i++ { pool.conns = append(pool.conns, newConn()) }`
with `remaining` iterations left to run; the state is the pool and the number of
`newConn` invocations made so far. -/
def NewCPool.fill (d : Driver) : Nat → cPool × Nat → cPool × Nat
  | 0, st => st
  | remaining + 1, st =>
    let r := newConn d st.2
    NewCPool.fill d remaining ({ st.1 with conns := st.1.conns ++ [r.1] }, r.2)

/-- Go `NewCPool(maxConn)`, started when `calls` invocations of `newConn` have already
happened. `make([]*conn, 0, maxConn)` panics with "cap out of range" for a negative
capacity and for one whose backing array would exceed `runtime.maxAlloc`
(`runtime.makeslice`); otherwise the loop runs `maxConn` times and the function returns
the pool and a nil error (and, as ghost output, the invocation count of `newConn`).
`maxConn` is a Go `int`: a value below 2^63. Exhaustion of the machine's memory is not
modelled. -/
def NewCPool (rt : GoRuntime) (d : Driver) (calls : Nat) (maxConn : Int) :
    Except Panic (cPool × Option GoError × Nat) :=
  if maxConn < 0 ∨ (rt.maxAlloc : Int) < (rt.ptrSize : Int) * maxConn then
    .error .makesliceCapOutOfRange
  else
    let st := NewCPool.fill d maxConn.toNat ({ conns := [], maxConn := maxConn }, calls)
    .ok (st.1, none, st.2)

/-! ## Get and Put -/

/-- What other goroutines can do to the pool while a waiting `Get` has released the
lock (lines 41-43): a `Put(c)`, or the removal performed by a competing `Get`. -/
inductive PoolOp where
  | put (c : ConnPtr)
  | take
deriving DecidableEq, Repr

/-- Go `pool.Put(c)`: `pool.conns = append(pool.conns, c)` under the lock. -/
def Put (pool : cPool) (c : ConnPtr) : cPool :=
  { pool with conns := pool.conns ++ [c] }

/-- Effect of one operation of another goroutine on the pool. -/
def PoolOp.apply (pool : cPool) : PoolOp → cPool
  | .put c => Put pool c
  | .take => { pool with conns := pool.conns.drop 1 }

/-- Effect of a sequence of operations of other goroutines. -/
def applyOps (ops : List PoolOp) (pool : cPool) : cPool :=
  ops.foldl PoolOp.apply pool

/-- Go `pool.Get()`. Each element of `env` is one pass through the waiting loop
(lines 39-44): the operations other goroutines perform while this caller sleeps with
the lock released. The loop condition `len(pool.conns) == 0` is re-checked after each
pass; when it is false the first element is removed and returned with a nil error.
`none` means that `Get` is still waiting after the passes listed in `env`. -/
def Get : List (List PoolOp) → cPool → Option (ConnPtr × Option GoError × cPool)
  | env, pool =>
    match pool.conns with
    | c :: rest => some (c, none, { pool with conns := rest })
    | [] =>
      match env with
      | [] => none
      | ops :: env' => Get env' (applyOps ops pool)

/-! ## Callers of the pool: atomic Get and Put steps -/

/-- The pool together with the handles currently out: `(a, c)` in `held` means that
caller `a` obtained `c` from `Get` and has not yet passed it to `Put`. -/
structure Sys where
  pool : cPool
  held : List (Nat × ConnPtr)
deriving DecidableEq, Repr

/-- One atomic step of a caller: an attempt to `Get`, or a `Put` of a handle. -/
inductive Act where
  | get (caller : Nat)
  | put (caller : Nat) (c : ConnPtr)
deriving DecidableEq, Repr

/-- One atomic step. A `get` on an empty store leaves the caller waiting and the state
unchanged; otherwise the caller now holds the handle `Get` returned. A `put` is only
available to a caller for a handle it holds (`none` otherwise). -/
def Sys.step (s : Sys) : Act → Option Sys
  | .get a =>
    match Get [] s.pool with
    | none => some s
    | some (c, _, p) => some { pool := p, held := (a, c) :: s.held }
  | .put a c =>
    if (a, c) ∈ s.held then some { pool := Put s.pool c, held := s.held.erase (a, c) }
    else none

/-- A sequence of atomic steps. -/
def Sys.run : List Act → Sys → Option Sys
  | [], s => some s
  | act :: acts, s =>
    match s.step act with
    | none => none
    | some s' => Sys.run acts s'

/-- `n` times: `Get` with no other goroutine active, then `Put` of the handle obtained. -/
def getThenPut : Nat → cPool → Option cPool
  | 0, pool => some pool
  | n + 1, pool =>
    match Get [] pool with
    | none => none
    | some (c, _, p) => getThenPut n (Put p c)

/-! ## The request goroutines of `benchmarkWithPool` -/

/-- Control point of one request goroutine (lines 67-94). The increments
`connectionFailures++` and `successfulConnections++` are performed on variables shared
by all goroutines without holding any lock, so each is a load followed by a store. -/
inductive Req where
  /-- Line 71: inside or before `pool.Get()`. -/
  | start
  /-- Line 79: `Get` returned `c`, about to call `conn.db.Exec`. -/
  | acquired (c : ConnPtr)
  /-- Lines 74 and 86: about to load `connectionFailures`; `ret` is the handle to `Put`
  afterwards (line 87), or `none` on the path of line 74, which returns without `Put`. -/
  | failLoad (ret : Option ConnPtr)
  /-- Lines 74 and 86: loaded `v`, about to store `v + 1`. -/
  | failStore (ret : Option ConnPtr) (v : Nat)
  /-- Line 91: about to load `successfulConnections`. -/
  | succLoad (c : ConnPtr)
  /-- Line 91: loaded `v`, about to store `v + 1`. -/
  | succStore (c : ConnPtr) (v : Nat)
  /-- Lines 87 and 93: about to call `pool.Put(c)`. -/
  | putting (c : ConnPtr)
  /-- Returned (`wg.Done()`). -/
  | done
deriving DecidableEq, Repr

/-- The handle a goroutine holds at a control point (at most one). -/
def Req.held : Req → List ConnPtr
  | .start => []
  | .acquired c => [c]
  | .failLoad ret => ret.toList
  | .failStore ret _ => ret.toList
  | .succLoad c => [c]
  | .succStore c _ => [c]
  | .putting c => [c]
  | .done => []

/-- State of a run of `benchmarkWithPool`: the shared pool, the two shared counters, the
goroutines (`reqs[i]` has `requestID = i + 1`), and a ghost record `handed` of which
handle each successful `Get` returned to which goroutine index, in order. -/
structure Bench where
  pool : cPool
  connectionFailures : Nat
  successfulConnections : Nat
  reqs : List Req
  handed : List (Nat × ConnPtr)
deriving DecidableEq, Repr

/-- One atomic step of goroutine `i`. `exec db requestID` is the outcome of
`conn.db.Exec("SELECT pg_sleep(0.01);")` on that connection for that request
(`none` is a nil error). Calling `conn.db` on a nil `conn` panics. -/
def Bench.step (exec : Nat → Nat → Option GoError) (b : Bench) (i : Nat) :
    Except Panic Bench :=
  match b.reqs[i]? with
  | none => .ok b
  | some .start =>
    match Get [] b.pool with
    | none => .ok b
    | some (c, err, p) =>
      match err with
      | some _ => .ok { b with pool := p, reqs := b.reqs.set i (.failLoad none) }
      | none => .ok { b with pool := p, reqs := b.reqs.set i (.acquired c),
                             handed := b.handed ++ [(i, c)] }
  | some (.acquired c) =>
    match c with
    | none => .error .nilPointerDereference
    | some cn =>
      match exec cn.db (i + 1) with
      | some _ => .ok { b with reqs := b.reqs.set i (.failLoad (some c)) }
      | none => .ok { b with reqs := b.reqs.set i (.succLoad c) }
  | some (.failLoad ret) =>
    .ok { b with reqs := b.reqs.set i (.failStore ret b.connectionFailures) }
  | some (.failStore ret v) =>
    .ok { b with connectionFailures := v + 1,
                 reqs := b.reqs.set i (match ret with
                                       | none => .done
                                       | some c => .putting c) }
  | some (.succLoad c) =>
    .ok { b with reqs := b.reqs.set i (.succStore c b.successfulConnections) }
  | some (.succStore c v) =>
    .ok { b with successfulConnections := v + 1, reqs := b.reqs.set i (.putting c) }
  | some (.putting c) =>
    .ok { b with pool := Put b.pool c, reqs := b.reqs.set i .done }
  | some .done => .ok b

/-- A schedule: the goroutine index that takes each successive atomic step. -/
def Bench.run (exec : Nat → Nat → Option GoError) : List Nat → Bench → Except Panic Bench
  | [], b => .ok b
  | i :: sched, b =>
    match b.step exec i with
    | .error e => .error e
    | .ok b' => Bench.run exec sched b'

/-- State after the spawning loop of lines 65-95: counters at zero and
`maxConnections` goroutines at their first instruction. -/
def Bench.init (pool : cPool) (maxConnections : Int) : Bench :=
  { pool := pool, connectionFailures := 0, successfulConnections := 0,
    reqs := List.replicate maxConnections.toNat .start, handed := [] }

/-- The figures printed at lines 100-102. -/
structure Summary where
  totalRequests : Int
  successfulConnections : Nat
  connectionFailures : Nat
deriving DecidableEq, Repr

/-- Go `benchmarkWithPool(pool, maxConnections)` under the schedule `sched`. The result
is `.ok none` when `wg.Wait()` has not returned after the schedule (some goroutine has
not finished), and otherwise the printed summary together with the final pool. A panic
in a goroutine aborts the process; the average at line 104 divides by `maxConnections`.
Durations are not modelled. -/
def benchmarkWithPool (exec : Nat → Nat → Option GoError) (sched : List Nat)
    (pool : cPool) (maxConnections : Int) : Except Panic (Option (Summary × cPool)) :=
  match Bench.run exec sched (Bench.init pool maxConnections) with
  | .error e => .error e
  | .ok b =>
    if b.reqs.all (fun r => r == .done) then
      if maxConnections = 0 then .error .integerDivideByZero
      else .ok (some ({ totalRequests := maxConnections,
                        successfulConnections := b.successfulConnections,
                        connectionFailures := b.connectionFailures }, b.pool))
    else .ok none

/-- The schedule that serves the requests one at a time, in spawning order: goroutine
`i` takes its five steps (Get, Exec, load, store, Put) before goroutine `i + 1` starts. -/
def serialSched : Nat → List Nat
  | 0 => []
  | n + 1 => serialSched n ++ List.replicate 5 n

/-- No `Put` by any other goroutine during the passes listed in `env`. -/
def noPut (env : List (List PoolOp)) : Bool :=
  env.all (fun ops => ops.all (fun op => op == PoolOp.take))

/-- The handles held by all goroutines of a run. -/
def Bench.heldAll (b : Bench) : List ConnPtr :=
  b.reqs.flatMap Req.held

/-- The schedule in which goroutines 0 and 1 take their five steps in alternation (both
hold a handle at the same time) and the remaining `n - 2` goroutines are then served
one at a time. -/
def overlapSched (n : Nat) : List Nat :=
  [0, 1, 0, 1, 0, 1, 0, 1, 0, 1] ++
    (List.range (n - 2)).flatMap (fun j => List.replicate 5 (2 + j))

/-- Go `main()`: a pool of `poolSize = 10` handles, then `benchmarkWithPool` with
`maxConnections = 1000` requests; `log.Fatalf` if `NewCPool` returns an error. -/
def main (rt : GoRuntime) (d : Driver) (exec : Nat → Nat → Option GoError)
    (sched : List Nat) : Except Panic (Option (Summary × cPool)) :=
  match NewCPool rt d 0 10 with
  | .error e => .error e
  | .ok (pool, err, _) =>
    match err with
    | some _ => .error .logFatal
    | none => benchmarkWithPool exec sched pool 1000

/-- The handle at position `j mod k` of a list of `k` live handles (nil for an empty
list): the one at the front of the store when request `j` is served in a serial run. -/
def servedBy (handles : List conn) (j : Nat) : ConnPtr :=
  handles[j % handles.length]?

/-- Whether `Exec` fails for request `j` (`requestID = j + 1`) in a serial run. -/
def serialFails (exec : Nat → Nat → Option GoError) (handles : List conn) (j : Nat) : Bool :=
  match servedBy handles j with
  | some c => (exec c.db (j + 1)).isSome
  | none => false

/-! ## Concrete inputs -/

/-- The Go runtime on linux/amd64: pointers of 8 bytes, `maxAlloc = 2^48`, so that
`make([]*conn, 0, cap)` accepts the capacities from 0 to 2^45. -/
def linuxAmd64 : GoRuntime :=
  { ptrSize := 8, maxAlloc := 2 ^ 48 }

/-- A driver for which every `sql.Open` and `db.Ping` succeeds; the k-th open yields
the connection with identity `k`. -/
def driverUp : Driver :=
  { openResult := fun k => some k, pingOk := fun _ => true }

/-- A driver for which every `sql.Open` fails (the database is unreachable). -/
def driverDown : Driver :=
  { openResult := fun _ => none, pingOk := fun _ => true }

/-- A driver whose second connection attempt fails the `Ping`. -/
def driverFlaky : Driver :=
  { openResult := fun k => some (10 + k), pingOk := fun k => k != 1 }

/-- Every `Exec` succeeds. -/
def execOk : Nat → Nat → Option GoError :=
  fun _ _ => none

/-- `Exec` fails with EOF on the connection with identity `bad`, succeeds elsewhere. -/
def execBroken (bad : Nat) : Nat → Nat → Option GoError :=
  fun db _ => if db = bad then some GoError.eof else none

/-- A pool of two live handles. -/
def pool2 : cPool :=
  { conns := [some ⟨0⟩, some ⟨1⟩], maxConn := 2 }

/-- A pool of three live handles. -/
def pool3 : cPool :=
  { conns := [some ⟨0⟩, some ⟨1⟩, some ⟨2⟩], maxConn := 3 }

/-! # Theorems -/


/-! ## Basic facts about `Get`, `Put` and `NewCPool` -/

theorem Get_cons (env : List (List PoolOp)) (pool : cPool) (c : ConnPtr) (rest : List ConnPtr)
    (h : pool.conns = c :: rest) :
    Get env pool = some (c, none, { pool with conns := rest }) := by
  cases env <;> simp [Get, h]

theorem Get_mk_cons (env : List (List PoolOp)) (c : ConnPtr) (rest : List ConnPtr)
    (maxConn : Int) :
    Get env { conns := c :: rest, maxConn := maxConn } =
      some (c, none, { conns := rest, maxConn := maxConn }) :=
  Get_cons env _ c rest rfl

theorem Get_nil_empty (pool : cPool) (h : pool.conns = []) : Get [] pool = none := by
  simp [Get, h]

theorem Get_step_empty (ops : List PoolOp) (env : List (List PoolOp)) (pool : cPool)
    (h : pool.conns = []) : Get (ops :: env) pool = Get env (applyOps ops pool) := by
  simp [Get, h]

theorem Get_error_nil : ∀ (env : List (List PoolOp)) (pool : cPool)
    (r : ConnPtr × Option GoError × cPool), Get env pool = some r → r.2.1 = none := by
  intro env
  induction env with
  | nil =>
    intro pool r h
    cases hc : pool.conns with
    | nil => rw [Get_nil_empty _ hc] at h; cases h
    | cons c rest => rw [Get_cons _ _ _ _ hc] at h; cases h; rfl
  | cons ops env ih =>
    intro pool r h
    cases hc : pool.conns with
    | nil => rw [Get_step_empty _ _ _ hc] at h; exact ih _ _ h
    | cons c rest => rw [Get_cons _ _ _ _ hc] at h; cases h; rfl

theorem fill_spec (d : Driver) : ∀ (n : Nat) (st : cPool × Nat),
    NewCPool.fill d n st =
      ({ st.1 with conns := st.1.conns ++ (List.range n).map (fun i => (newConn d (st.2 + i)).1) },
        st.2 + n) := by
  intro n
  induction n with
  | zero => intro st; simp [NewCPool.fill]
  | succ n ih =>
    intro st
    have h2 : (newConn d st.2).2 = st.2 + 1 := by
      unfold newConn; split
      · rfl
      · split <;> rfl
    rw [NewCPool.fill, ih]
    simp only [h2, List.range_succ_eq_map, List.map_cons, List.map_map, List.append_assoc,
      List.singleton_append, Nat.add_zero]
    refine Prod.ext ?_ (by simp; omega)
    simp only
    congr 3
    apply List.map_congr_left
    intro i _
    simp [Nat.add_assoc, Nat.add_comm 1 i]

/-! ## Get: claim C3 -/

/-- C3. On a pool whose idle store is non-empty, whatever other goroutines would do
later, `Get` returns the first element of `pool.conns` with a nil error; the store
afterwards is the old one without its first element (one shorter, same order) and
`maxConn` is unchanged. Moreover no call of `Get`, on any pool, returns a non-nil error. -/
theorem Get_removes_first (env : List (List PoolOp)) (pool : cPool) (h : pool.conns ≠ []) :
    (∃ c p, Get env pool = some (c, none, p) ∧
        pool.conns.head? = some c ∧
        p.conns = pool.conns.tail ∧
        pool.conns = c :: p.conns ∧
        p.conns.length + 1 = pool.conns.length ∧
        p.maxConn = pool.maxConn) ∧
    (∀ (env' : List (List PoolOp)) (pool' : cPool) (c : ConnPtr) (e : Option GoError)
        (p : cPool), Get env' pool' = some (c, e, p) → e = none) := by
  constructor
  · cases hc : pool.conns with
    | nil => exact absurd hc h
    | cons c rest =>
      exact ⟨c, { pool with conns := rest }, Get_cons env pool c rest hc, by simp⟩
  · intro env' pool' c e p hget
    exact Get_error_nil env' pool' (c, e, p) hget

/-- C3, at a concrete pool of three live handles. -/
theorem Get_removes_first_witness :
    pool3.conns ≠ [] ∧
    ∃ c p, Get [] pool3 = some (c, none, p) ∧
        pool3.conns.head? = some c ∧
        p.conns = pool3.conns.tail ∧
        pool3.conns = c :: p.conns ∧
        p.conns.length + 1 = pool3.conns.length ∧
        p.maxConn = pool3.maxConn :=
  ⟨by decide, (Get_removes_first [] pool3 (by decide)).1⟩

/-! ## Put: claim C4 -/

/-- C4. For every pool and every handle `c`, nil included, `Put` appends `c` at the end
of the idle store: the store grows by exactly one entry whatever it already contains
(also when `c` is already in it, and when it already has `maxConn` entries or more), and
`maxConn` is unchanged. -/
theorem Put_unconditional (pool : cPool) (c : ConnPtr) :
    (Put pool c).conns = pool.conns ++ [c] ∧
    (Put pool c).conns.length = pool.conns.length + 1 ∧
    (Put pool c).maxConn = pool.maxConn ∧
    (Put (Put pool c) c).conns = pool.conns ++ [c, c] := by
  simp [Put]

/-! ## NewCPool: claim C5 -/

theorem NewCPool_of_inRange (rt : GoRuntime) (d : Driver) (calls : Nat) (maxConn : Int)
    (h : 0 ≤ maxConn) (hcap : (rt.ptrSize : Int) * maxConn ≤ rt.maxAlloc) :
    NewCPool rt d calls maxConn =
      .ok ({ conns := (List.range maxConn.toNat).map (fun i => (newConn d (calls + i)).1),
             maxConn := maxConn }, none, calls + maxConn.toNat) := by
  have hrange : ¬ (maxConn < 0 ∨ (rt.maxAlloc : Int) < (rt.ptrSize : Int) * maxConn) := by
    intro hor
    rcases hor with h1 | h1
    · exact absurd h (not_le.mpr h1)
    · exact absurd hcap (not_le.mpr h1)
  simp only [NewCPool, hrange, if_false, fill_spec]
  simp

theorem NewCPool_out_of_range (rt : GoRuntime) (d : Driver) (calls : Nat) (maxConn : Int)
    (h : maxConn < 0 ∨ (rt.maxAlloc : Int) < (rt.ptrSize : Int) * maxConn) :
    NewCPool rt d calls maxConn = .error Panic.makesliceCapOutOfRange := by
  simp only [NewCPool, h, if_true]

theorem NewCPool_ok_inRange (rt : GoRuntime) (d : Driver) (calls : Nat) (maxConn : Int)
    (r : cPool × Option GoError × Nat) (h : NewCPool rt d calls maxConn = .ok r) :
    0 ≤ maxConn ∧ (rt.ptrSize : Int) * maxConn ≤ rt.maxAlloc := by
  by_contra hnot
  have hor : maxConn < 0 ∨ (rt.maxAlloc : Int) < (rt.ptrSize : Int) * maxConn := by
    by_contra hno
    exact hnot ⟨not_lt.mp (fun h1 => hno (Or.inl h1)), not_lt.mp (fun h1 => hno (Or.inr h1))⟩
  rw [NewCPool_out_of_range rt d calls maxConn hor] at h
  cases h

/-- C5 as stated fails: 2^62 and 2^45 + 1 are non-negative values of a Go `int`, but on
linux/amd64 `make([]*conn, 0, maxConn)` panics with "cap out of range" for them, so
`NewCPool` returns neither a pool nor a nil error. -/
theorem NewCPool_huge_capacity_panics :
    (0 : Int) ≤ 2 ^ 62 ∧ (2 : Int) ^ 62 < 2 ^ 63 ∧
    NewCPool linuxAmd64 driverUp 0 (2 ^ 62) = .error Panic.makesliceCapOutOfRange ∧
    NewCPool linuxAmd64 driverUp 0 (2 ^ 45 + 1) = .error Panic.makesliceCapOutOfRange ∧
    ¬ ∃ pool e k, NewCPool linuxAmd64 driverUp 0 (2 ^ 62) = .ok (pool, e, k) := by
  have h62 : NewCPool linuxAmd64 driverUp 0 (2 ^ 62) = .error Panic.makesliceCapOutOfRange :=
    NewCPool_out_of_range linuxAmd64 driverUp 0 (2 ^ 62) (Or.inr (by decide))
  refine ⟨by decide, by decide, h62,
    NewCPool_out_of_range linuxAmd64 driverUp 0 (2 ^ 45 + 1) (Or.inr (by decide)), ?_⟩
  rintro ⟨pool, e, k, hok⟩
  rw [h62] at hok
  cases hok

/-- C5 (amended). For every `maxConn ≥ 0` that `make` accepts as a capacity, that is with
`ptrSize * maxConn ≤ maxAlloc` (at most 2^45 on linux/amd64), and any behaviour of the
driver, `NewCPool` returns a nil error and a pool whose `maxConn` is the argument and
whose idle store has exactly `maxConn` entries, the i-th being what the i-th call of
`newConn` returned: a live handle when `sql.Open` and `db.Ping` both succeeded, nil
otherwise. `newConn` is called exactly `maxConn` times (no entry is dropped, no call is
repeated). -/
theorem NewCPool_spec (rt : GoRuntime) (d : Driver) (calls : Nat) (maxConn : Int)
    (h : 0 ≤ maxConn) (hcap : (rt.ptrSize : Int) * maxConn ≤ rt.maxAlloc) :
    ∃ pool : cPool,
      NewCPool rt d calls maxConn = .ok (pool, none, calls + maxConn.toNat) ∧
      pool.maxConn = maxConn ∧
      (pool.conns.length : Int) = maxConn ∧
      pool.conns = (List.range maxConn.toNat).map (fun i => (newConn d (calls + i)).1) ∧
      (∀ i, i < maxConn.toNat →
        pool.conns[i]? = some
          (match d.openResult (calls + i) with
           | none => none
           | some db => if d.pingOk (calls + i) then some ⟨db⟩ else none)) := by
  refine ⟨{ conns := (List.range maxConn.toNat).map (fun i => (newConn d (calls + i)).1),
            maxConn := maxConn }, NewCPool_of_inRange rt d calls maxConn h hcap, rfl, ?_, rfl, ?_⟩
  · simp [Int.toNat_of_nonneg h]
  · intro i hi
    simp only [List.getElem?_map, List.getElem?_range hi, Option.map_some', newConn]
    cases d.openResult (calls + i) with
    | none => rfl
    | some db => cases d.pingOk (calls + i) <;> rfl

/-- C5 (amended), on linux/amd64 with a driver whose second connection attempt fails
its `Ping`. -/
theorem NewCPool_spec_witness :
    (0 : Int) ≤ 3 ∧ ((linuxAmd64.ptrSize : Int) * 3 ≤ linuxAmd64.maxAlloc) ∧
    ∃ pool : cPool,
      NewCPool linuxAmd64 driverFlaky 0 3 = .ok (pool, none, 3) ∧
      pool.maxConn = 3 ∧
      (pool.conns.length : Int) = 3 ∧
      pool.conns = [some ⟨10⟩, none, some ⟨12⟩] := by
  refine ⟨by decide, by decide, ?_⟩
  obtain ⟨pool, hnew, hmax, hlen, hconns, -⟩ :=
    NewCPool_spec linuxAmd64 driverFlaky 0 3 (by decide) (by decide)
  exact ⟨pool, hnew, hmax, hlen, by rw [hconns]; rfl⟩

/-! ## Atomic Get and Put steps: the handles are conserved -/

theorem perm_cons_erase_lawful {α : Type} [BEq α] [LawfulBEq α] (a : α) :
    ∀ l : List α, a ∈ l → l.Perm (a :: l.erase a) := by
  intro l
  induction l with
  | nil => intro h; cases h
  | cons b t ih =>
    intro h
    rw [List.erase_cons]
    by_cases hb : (b == a) = true
    · have : b = a := eq_of_beq hb
      subst this
      simp
    · simp only [hb, if_false]
      have hne : a ≠ b := fun e => hb (by rw [e]; exact beq_self_eq_true b)
      have hat : a ∈ t := by
        rcases List.mem_cons.mp h with h1 | h1
        · exact absurd h1 hne
        · exact h1
      exact ((ih hat).cons b).trans (List.Perm.swap a b _)

theorem Sys.step_conserves (s s' : Sys) (act : Act) (h : s.step act = some s') :
    (s'.pool.conns ++ s'.held.map Prod.snd).Perm (s.pool.conns ++ s.held.map Prod.snd) ∧
    s'.pool.maxConn = s.pool.maxConn := by
  cases act with
  | get a =>
    cases hc : s.pool.conns with
    | nil =>
      simp only [Sys.step, Get_nil_empty _ hc, Option.some.injEq] at h
      subst h
      exact ⟨by rw [hc], rfl⟩
    | cons c rest =>
      simp only [Sys.step, Get_cons _ _ _ _ hc, Option.some.injEq] at h
      subst h
      exact ⟨by simp [List.perm_middle], rfl⟩
  | put a c =>
    by_cases hmem : (a, c) ∈ s.held
    · simp only [Sys.step, hmem, if_true, Option.some.injEq] at h
      subst h
      refine ⟨?_, rfl⟩
      have h1 : (s.held.map Prod.snd).Perm (c :: (s.held.erase (a, c)).map Prod.snd) :=
        by simpa using (perm_cons_erase_lawful (a, c) s.held hmem).map Prod.snd
      simp only [Put, List.append_assoc, List.singleton_append]
      exact List.Perm.append_left _ h1.symm
    · simp [Sys.step, hmem] at h

theorem Sys.run_conserves : ∀ (acts : List Act) (s s' : Sys), Sys.run acts s = some s' →
    (s'.pool.conns ++ s'.held.map Prod.snd).Perm (s.pool.conns ++ s.held.map Prod.snd) ∧
    s'.pool.maxConn = s.pool.maxConn := by
  intro acts
  induction acts with
  | nil =>
    intro s s' h
    simp only [Sys.run, Option.some.injEq] at h
    subst h
    exact ⟨List.Perm.refl _, rfl⟩
  | cons act acts ih =>
    intro s s' h
    cases hstep : s.step act with
    | none => simp [Sys.run, hstep] at h
    | some s1 =>
      simp only [Sys.run, hstep] at h
      obtain ⟨hp1, hm1⟩ := Sys.step_conserves s s1 act hstep
      obtain ⟨hp2, hm2⟩ := ih s1 s' h
      exact ⟨hp2.trans hp1, hm2.trans hm1⟩

/-! ## Capacity bound: claim C1 -/

/-- C1. In every state reached from the pool returned by `NewCPool n` through atomic
`Get` and `Put` steps, each `Put` giving back a handle its caller holds, the number of
idle entries plus the number of held handles equals `n`, hence is at most `n`, and
`maxConn` is still `n`, whatever the limits of the runtime. (`NewCPool` returning a pool
already forces `n ≥ 0`.) -/
theorem capacity_bound (rt : GoRuntime) (d : Driver) (calls k : Nat) (n : Int) (pool : cPool)
    (acts : List Act) (s : Sys) (hnew : NewCPool rt d calls n = .ok (pool, none, k))
    (hrun : Sys.run acts { pool := pool, held := [] } = some s) :
    ((s.pool.conns.length + s.held.length : Nat) : Int) ≤ n ∧
    ((s.pool.conns.length + s.held.length : Nat) : Int) = s.pool.maxConn ∧
    s.pool.maxConn = n := by
  obtain ⟨hn, hcap⟩ := NewCPool_ok_inRange rt d calls n _ hnew
  have hnew' := NewCPool_of_inRange rt d calls n hn hcap
  rw [hnew] at hnew'
  have hpool : pool = { conns := (List.range n.toNat).map (fun i => (newConn d (calls + i)).1),
                        maxConn := n } := by
    simp only [Except.ok.injEq, Prod.mk.injEq] at hnew'
    exact hnew'.1
  have hmax : pool.maxConn = n := by rw [hpool]
  have hlen : (pool.conns.length : Int) = n := by
    rw [hpool]; simp [Int.toNat_of_nonneg hn]
  obtain ⟨hperm, hm⟩ := Sys.run_conserves acts _ s hrun
  have hcount : s.pool.conns.length + s.held.length = pool.conns.length := by
    have := hperm.length_eq
    simpa using this
  rw [hcount, hm]
  simp only at *
  exact ⟨le_of_eq hlen, hlen.trans hmax.symm, hmax⟩

/-- C1, on a pool of capacity 2: both handles taken, one given back, a third `Get`. -/
theorem capacity_bound_witness :
    NewCPool linuxAmd64 driverUp 0 2 = .ok (pool2, none, 2) ∧
    Sys.run [.get 7, .get 8, .put 7 (some ⟨0⟩), .get 9] { pool := pool2, held := [] } =
      some { pool := ⟨[], 2⟩, held := [(9, some ⟨0⟩), (8, some ⟨1⟩)] } ∧
    (((0 + 2 : Nat) : Int) ≤ 2 ∧ ((0 + 2 : Nat) : Int) = 2 ∧ (2 : Int) = 2) :=
  ⟨rfl, by decide,
    capacity_bound linuxAmd64 driverUp 0 2 2 pool2 [.get 7, .get 8, .put 7 (some ⟨0⟩), .get 9]
      { pool := ⟨[], 2⟩, held := [(9, some ⟨0⟩), (8, some ⟨1⟩)] } rfl (by decide)⟩

/-! ## Mutual exclusion: claim C2 -/

/-- C2. Starting from a pool whose idle entries are pairwise distinct, with no handle
out, in every state reached through atomic `Get` and `Put` steps (each `Put` giving back
a handle its caller holds): the held handles and the idle entries are pairwise distinct
altogether, so no handle is held twice or by two callers, no held handle is in the idle
store, and the handle a further `Get` returns is held by nobody. -/
theorem mutual_exclusion (pool : cPool) (acts : List Act) (s : Sys)
    (hdistinct : pool.conns.Nodup)
    (hrun : Sys.run acts { pool := pool, held := [] } = some s) :
    (s.held.map Prod.snd ++ s.pool.conns).Nodup ∧
    (∀ a a' c, (a, c) ∈ s.held → (a', c) ∈ s.held → a = a') ∧
    (∀ a c, (a, c) ∈ s.held → c ∉ s.pool.conns) ∧
    (∀ env c e p, Get env s.pool = some (c, e, p) → s.pool.conns ≠ [] →
        ∀ a, (a, c) ∉ s.held) := by
  obtain ⟨hperm, -⟩ := Sys.run_conserves acts _ s hrun
  simp only [List.map_nil, List.append_nil] at hperm
  have hnd : (s.held.map Prod.snd ++ s.pool.conns).Nodup :=
    (List.perm_append_comm.trans hperm).nodup_iff.mpr hdistinct
  have hparts := List.nodup_append.mp hnd
  have hdisj : ∀ a c, (a, c) ∈ s.held → c ∉ s.pool.conns := by
    intro a c hmem hin
    exact hparts.2.2 (List.mem_map_of_mem Prod.snd hmem) hin
  refine ⟨hnd, ?_, hdisj, ?_⟩
  · intro a a' c h1 h2
    have := List.inj_on_of_nodup_map hparts.1 h1 h2 rfl
    exact congrArg Prod.fst this
  · intro env c e p hget hne a hmem
    cases hc : s.pool.conns with
    | nil => exact hne hc
    | cons c0 rest =>
      rw [Get_cons env _ c0 rest hc] at hget
      simp only [Option.some.injEq, Prod.mk.injEq] at hget
      have hc0 : c0 = c := hget.1
      subst hc0
      exact hdisj a c0 hmem (by rw [hc]; exact List.mem_cons_self _ _)

/-- C2, on a pool of two distinct live handles: two callers each take one, one is given
back and taken by a third caller. -/
theorem mutual_exclusion_witness :
    pool2.conns.Nodup ∧
    Sys.run [.get 7, .get 8, .put 7 (some ⟨0⟩), .get 9] { pool := pool2, held := [] } =
      some { pool := ⟨[], 2⟩, held := [(9, some ⟨0⟩), (8, some ⟨1⟩)] } ∧
    ([(9, some (⟨0⟩ : conn)), (8, some ⟨1⟩)].map Prod.snd ++ ([] : List ConnPtr)).Nodup :=
  ⟨by decide, by decide,
    (mutual_exclusion pool2 [.get 7, .get 8, .put 7 (some ⟨0⟩), .get 9]
      { pool := ⟨[], 2⟩, held := [(9, some ⟨0⟩), (8, some ⟨1⟩)] } (by decide) (by decide)).1⟩

/-! ## Conservation: claim C6 -/

theorem getThenPut_spec : ∀ (n : Nat) (pool : cPool), pool.conns ≠ [] →
    getThenPut n pool = some { pool with conns := pool.conns.rotate n } := by
  intro n
  induction n with
  | zero => intro pool _; simp [getThenPut]
  | succ n ih =>
    intro pool hne
    cases hc : pool.conns with
    | nil => exact absurd hc hne
    | cons c rest =>
      rw [getThenPut, Get_cons [] pool c rest hc]
      simp only
      rw [ih _ (by simp [Put])]
      simp [Put, List.rotate_cons_succ]

/-- C6. On a pool whose idle store is non-empty, `Get` followed by `Put` of the handle
obtained leaves the store with the same size: it is the old store rotated left by one.
Hence, for every `N`, `N` such pairs one after the other return, leave the store equal
to the old one rotated by `N`, of the same size and with the same handles counted with
multiplicity, and leave `maxConn` unchanged. More generally, for callers whose atomic
`Get` and `Put` steps interleave in any way, once every handle taken has been given back
the store has the size and the handles it started with. -/
theorem conservation (pool : cPool) (h : pool.conns ≠ []) :
    (∀ env, ∃ c p, Get env pool = some (c, none, p) ∧
        (Put p c).conns = pool.conns.rotate 1 ∧
        (Put p c).conns.length = pool.conns.length) ∧
    (∀ N, ∃ q, getThenPut N pool = some q ∧
        q.conns = pool.conns.rotate N ∧
        q.conns.length = pool.conns.length ∧
        q.conns.Perm pool.conns ∧
        q.maxConn = pool.maxConn) ∧
    (∀ acts s, Sys.run acts { pool := pool, held := [] } = some s → s.held = [] →
        s.pool.conns.length = pool.conns.length ∧ s.pool.conns.Perm pool.conns) := by
  refine ⟨?_, ?_, ?_⟩
  · intro env
    cases hc : pool.conns with
    | nil => exact absurd hc h
    | cons c rest =>
      refine ⟨c, { pool with conns := rest }, Get_cons env pool c rest hc, ?_, ?_⟩
      · simp [Put, List.rotate_cons_succ]
      · simp [Put]
  · intro N
    exact ⟨_, getThenPut_spec N pool h, rfl, by simp, List.rotate_perm _ _, rfl⟩
  · intro acts s hrun hheld
    obtain ⟨hperm, -⟩ := Sys.run_conserves acts _ s hrun
    simp only [hheld, List.map_nil, List.append_nil] at hperm
    exact ⟨hperm.length_eq, hperm⟩

/-- C6, on a pool of three handles and four acquire-then-release pairs. -/
theorem conservation_witness :
    pool3.conns ≠ [] ∧
    ∃ q, getThenPut 4 pool3 = some q ∧
        q.conns = [some ⟨1⟩, some ⟨2⟩, some ⟨0⟩] ∧
        q.conns.length = pool3.conns.length ∧
        q.conns.Perm pool3.conns ∧
        q.maxConn = pool3.maxConn := by
  refine ⟨by decide, ?_⟩
  obtain ⟨q, h1, h2, h3, h4, h5⟩ := (conservation pool3 (by decide)).2.1 4
  exact ⟨q, h1, by rw [h2]; rfl, h3, h4, h5⟩

/-! ## Blocking on an empty store: claim C7 -/

theorem applyOps_noPut_empty : ∀ (ops : List PoolOp) (pool : cPool),
    ops.all (fun op => op == PoolOp.take) = true → pool.conns = [] →
    applyOps ops pool = pool := by
  intro ops
  induction ops with
  | nil => intro pool _ _; rfl
  | cons op ops ih =>
    intro pool hall hempty
    simp only [List.all_cons, Bool.and_eq_true, beq_iff_eq] at hall
    obtain ⟨hop, hrest⟩ := hall
    subst hop
    have hstep : PoolOp.apply pool PoolOp.take = pool := by
      cases pool with
      | mk conns maxConn =>
        simp only at hempty
        subst hempty
        rfl
    simp only [applyOps, List.foldl_cons, hstep]
    exact ih pool hrest hempty

theorem Get_noPut_append : ∀ (pre post : List (List PoolOp)) (pool : cPool),
    noPut pre = true → pool.conns = [] → Get (pre ++ post) pool = Get post pool := by
  intro pre
  induction pre with
  | nil => intro post pool _ _; rfl
  | cons ops pre ih =>
    intro post pool hpre hempty
    simp only [noPut, List.all_cons, Bool.and_eq_true] at hpre
    rw [List.cons_append, Get_step_empty _ _ _ hempty,
      applyOps_noPut_empty ops pool hpre.1 hempty]
    exact ih post pool (by simpa [noPut] using hpre.2) hempty

theorem Get_returns_from_nonempty : ∀ (env : List (List PoolOp)) (pool : cPool)
    (c : ConnPtr) (e : Option GoError) (p : cPool), Get env pool = some (c, e, p) →
    ∃ i, i ≤ env.length ∧
      (applyOps (env.take i).flatten pool).conns = c :: p.conns ∧
      ∀ j, j < i → (applyOps (env.take j).flatten pool).conns = [] := by
  intro env
  induction env with
  | nil =>
    intro pool c e p h
    cases hc : pool.conns with
    | nil => rw [Get_nil_empty _ hc] at h; cases h
    | cons c0 rest =>
      rw [Get_cons _ _ _ _ hc] at h
      cases h
      exact ⟨0, le_refl _, by simpa [applyOps] using hc, fun j hj => absurd hj (Nat.not_lt_zero j)⟩
  | cons ops env ih =>
    intro pool c e p h
    cases hc : pool.conns with
    | nil =>
      rw [Get_step_empty _ _ _ hc] at h
      obtain ⟨i, hi, hconns, hbefore⟩ := ih _ c e p h
      refine ⟨i + 1, by simpa using hi, ?_, ?_⟩
      · simpa [applyOps, List.foldl_append] using hconns
      · intro j hj
        cases j with
        | zero => simpa [applyOps] using hc
        | succ j =>
          have := hbefore j (by omega)
          simpa [applyOps, List.foldl_append] using this
    | cons c0 rest =>
      rw [Get_cons _ _ _ _ hc] at h
      cases h
      exact ⟨0, Nat.zero_le _, by simpa [applyOps] using hc,
        fun j hj => absurd hj (Nat.not_lt_zero j)⟩

/-- C7. `Get` returns only from a non-empty store: whenever it returns, it does so at
the first check that finds the store non-empty, the returned handle being the first
element found there, and every earlier check found the store empty. A `Get`
issued on an empty store is still waiting after any finite number of passes during
which no `Put` happens, and resumes unchanged after them. With capacity 1 and the single
handle held by a first caller, a second `Get` does not return during any number of
passes without a `Put`, and returns that handle at the first check after the holder's
`Put`: this holds for the pool `NewCPool 1` returns (on every runtime on which `make`
accepts the capacity 1) and for any pool whose store holds a single handle. -/
theorem Get_blocks_on_empty (rt : GoRuntime) (d : Driver) (calls : Nat)
    (pre post : List (List PoolOp)) (hpre : noPut pre = true) :
    (∀ env pool c e p, Get env pool = some (c, e, p) →
        ∃ i, i ≤ env.length ∧
          (applyOps (env.take i).flatten pool).conns = c :: p.conns ∧
          ∀ j, j < i → (applyOps (env.take j).flatten pool).conns = []) ∧
    (∀ pool : cPool, pool.conns = [] →
        Get pre pool = none ∧ Get (pre ++ post) pool = Get post pool) ∧
    ((rt.ptrSize : Int) * 1 ≤ rt.maxAlloc →
      ∃ pool c p1, NewCPool rt d calls 1 = .ok (pool, none, calls + 1) ∧
        Get [] pool = some (c, none, p1) ∧
        p1.conns = [] ∧
        Get pre p1 = none ∧
        Get (pre ++ [[PoolOp.put c]]) p1 = some (c, none, p1)) ∧
    (∀ (c : ConnPtr) (maxConn : Int),
        Get [] { conns := [c], maxConn := maxConn } =
          some (c, none, { conns := [], maxConn := maxConn }) ∧
        Get pre { conns := [], maxConn := maxConn } = none ∧
        Get (pre ++ [[PoolOp.put c]]) { conns := [], maxConn := maxConn } =
          some (c, none, { conns := [], maxConn := maxConn })) := by
  have hwait : ∀ pool : cPool, pool.conns = [] →
      Get pre pool = none ∧ Get (pre ++ post) pool = Get post pool := by
    intro pool hempty
    refine ⟨?_, Get_noPut_append pre post pool hpre hempty⟩
    have := Get_noPut_append pre [] pool hpre hempty
    rw [List.append_nil] at this
    rw [this, Get_nil_empty _ hempty]
  have hsingle : ∀ (c : ConnPtr) (maxConn : Int),
      Get [] { conns := [c], maxConn := maxConn } =
        some (c, none, { conns := [], maxConn := maxConn }) ∧
      Get pre { conns := [], maxConn := maxConn } = none ∧
      Get (pre ++ [[PoolOp.put c]]) { conns := [], maxConn := maxConn } =
        some (c, none, { conns := [], maxConn := maxConn }) := by
    intro c maxConn
    refine ⟨Get_cons _ _ _ _ rfl, (hwait _ rfl).1, ?_⟩
    rw [Get_noPut_append pre _ { conns := [], maxConn := maxConn } hpre rfl,
      Get_step_empty _ _ _ rfl]
    exact Get_cons _ _ _ _ (by simp [applyOps, PoolOp.apply, Put])
  refine ⟨Get_returns_from_nonempty, hwait, ?_, hsingle⟩
  intro hcap
  have hnew := NewCPool_of_inRange rt d calls 1 (by decide) hcap
  obtain ⟨h1, h2, h3⟩ := hsingle (newConn d calls).1 1
  exact ⟨{ conns := [(newConn d calls).1], maxConn := 1 }, (newConn d calls).1,
    { conns := [], maxConn := 1 }, by rw [hnew]; rfl, h1, rfl, h2, h3⟩

/-- C7, with a second caller that polls three times (a competing `Get` also polling)
before the holder's `Put`. -/
theorem Get_blocks_on_empty_witness :
    noPut [[], [PoolOp.take], []] = true ∧
    (linuxAmd64.ptrSize : Int) * 1 ≤ linuxAmd64.maxAlloc ∧
    ∃ pool c p1, NewCPool linuxAmd64 driverUp 0 1 = .ok (pool, none, 0 + 1) ∧
        Get [] pool = some (c, none, p1) ∧
        p1.conns = [] ∧
        Get [[], [PoolOp.take], []] p1 = none ∧
        Get ([[], [PoolOp.take], []] ++ [[PoolOp.put c]]) p1 = some (c, none, p1) :=
  ⟨by decide, by decide,
    (Get_blocks_on_empty linuxAmd64 driverUp 0 [[], [PoolOp.take], []] [] (by decide)).2.2.1
      (by decide)⟩

/-! ## Runs of the request goroutines -/

theorem Bench.run_append (exec : Nat → Nat → Option GoError) :
    ∀ (s1 s2 : List Nat) (b : Bench),
    Bench.run exec (s1 ++ s2) b =
      match Bench.run exec s1 b with
      | .error e => .error e
      | .ok b' => Bench.run exec s2 b' := by
  intro s1
  induction s1 with
  | nil => intro s2 b; rfl
  | cons i s1 ih =>
    intro s2 b
    simp only [List.cons_append, Bench.run]
    cases b.step exec i with
    | error e => rfl
    | ok b' => exact ih s2 b'

/-- One request served without interruption (five consecutive steps of goroutine `j`)
on a store whose first handle is live. -/
theorem Bench.serve_one (exec : Nat → Nat → Option GoError) (b : Bench) (j : Nat) (c : conn)
    (rest : List ConnPtr) (hreq : b.reqs[j]? = some Req.start)
    (hconns : b.pool.conns = some c :: rest) :
    Bench.run exec (List.replicate 5 j) b =
      .ok { pool := { b.pool with conns := rest ++ [some c] },
            connectionFailures :=
              b.connectionFailures + (if (exec c.db (j + 1)).isSome then 1 else 0),
            successfulConnections :=
              b.successfulConnections + (if (exec c.db (j + 1)).isSome then 0 else 1),
            reqs := b.reqs.set j Req.done,
            handed := b.handed ++ [(j, some c)] } := by
  have hj : j < b.reqs.length := by
    by_contra hge
    rw [List.getElem?_eq_none (not_lt.mp hge)] at hreq
    cases hreq
  cases hex : exec c.db (j + 1) with
  | none =>
    simp [List.replicate, Bench.run, Bench.step, hreq, Get_cons _ _ _ _ hconns, hex, hj, Put]
  | some e =>
    simp [List.replicate, Bench.run, Bench.step, hreq, Get_cons _ _ _ _ hconns, hex, hj, Put]

theorem rotate_front (handles : List conn) (hne : handles ≠ []) (n : Nat) :
    ∃ c rest, servedBy handles n = some c ∧
      (handles.map some).rotate n = some c :: rest ∧
      rest ++ [some c] = (handles.map some).rotate (n + 1) := by
  have hlen : 0 < handles.length := List.length_pos.mpr hne
  have hmod : n % handles.length < handles.length := Nat.mod_lt _ hlen
  cases hl : (handles.map some).rotate n with
  | nil =>
    have hzero : ((handles.map some).rotate n).length = 0 := by rw [hl]; rfl
    rw [List.length_rotate, List.length_map] at hzero
    omega
  | cons x rest =>
    have hhead : ((handles.map some).rotate n).head? = some x := by rw [hl]; rfl
    have hmod' : n % (handles.map some).length < (handles.map some).length := by
      simpa using hmod
    rw [← List.rotate_mod, List.head?_rotate hmod'] at hhead
    simp only [List.length_map, List.getElem?_map] at hhead
    have hget : handles[n % handles.length]? = some (handles[n % handles.length]) :=
      List.getElem?_eq_getElem hmod
    rw [hget] at hhead
    simp only [Option.map_some', Option.some.injEq] at hhead
    refine ⟨handles[n % handles.length], rest, hget, by rw [← hhead], ?_⟩
    rw [← List.rotate_rotate, hl, ← hhead]
    simp [List.rotate_cons_succ]

theorem set_done_replicate : ∀ (n m : Nat), n < m →
    (List.replicate n Req.done ++ List.replicate (m - n) Req.start).set n Req.done =
      List.replicate (n + 1) Req.done ++ List.replicate (m - (n + 1)) Req.start := by
  intro n
  induction n with
  | zero =>
    intro m hm
    obtain ⟨m', rfl⟩ : ∃ m', m = m' + 1 := ⟨m - 1, by omega⟩
    simp [List.replicate_succ]
  | succ n ih =>
    intro m hm
    obtain ⟨m', rfl⟩ : ∃ m', m = m' + 1 := ⟨m - 1, by omega⟩
    have := ih m' (by omega)
    simp only [Nat.add_sub_add_right] at *
    rw [List.replicate_succ, List.cons_append, List.set_cons_succ, this]
    simp [List.replicate_succ]

/-- The serial run: after the first `n` of `m` requests have been served one at a time,
the store is the initial one rotated by `n`, request `j` was handed the handle at
position `j mod k`, and the counters count the requests whose `Exec` failed or succeeded. -/
theorem Bench.serial_run (exec : Nat → Nat → Option GoError) (handles : List conn)
    (hne : handles ≠ []) (maxConn : Int) (m : Nat) : ∀ n, n ≤ m →
    Bench.run exec (serialSched n)
        { pool := ⟨handles.map some, maxConn⟩, connectionFailures := 0,
          successfulConnections := 0, reqs := List.replicate m Req.start, handed := [] } =
      .ok { pool := ⟨(handles.map some).rotate n, maxConn⟩,
            connectionFailures := ((List.range n).filter (serialFails exec handles)).length,
            successfulConnections :=
              ((List.range n).filter (fun j => !serialFails exec handles j)).length,
            reqs := List.replicate n Req.done ++ List.replicate (m - n) Req.start,
            handed := (List.range n).map (fun j => (j, servedBy handles j)) } := by
  intro n
  induction n with
  | zero => intro _; simp [serialSched, Bench.run]
  | succ n ih =>
    intro hn
    obtain ⟨c, rest, hserved, hrot, hnext⟩ := rotate_front handles hne n
    have hfail : serialFails exec handles n = (exec c.db (n + 1)).isSome := by
      simp [serialFails, hserved]
    rw [serialSched, Bench.run_append, ih (by omega)]
    simp only
    rw [Bench.serve_one exec _ n c rest
      (by simp only [List.getElem?_append_right (Nat.le_of_eq (List.length_replicate n Req.done)),
            List.length_replicate, Nat.sub_self]
          exact List.getElem?_replicate_of_lt (by omega))
      hrot]
    simp only [hnext, set_done_replicate n m (by omega), List.range_succ, List.filter_append,
      List.map_append, List.length_append, List.map_cons, List.map_nil, hserved]
    congr 2
    · cases hex : (exec c.db (n + 1)).isSome <;> simp [List.filter, hfail, hex]
    · cases hex : (exec c.db (n + 1)).isSome <;> simp [List.filter, hfail, hex]

/-! ## Invariants of the request goroutines under every schedule -/

theorem flatMap_set_split (f : Req → List ConnPtr) : ∀ (l : List Req) (i : Nat) (r r' : Req),
    l[i]? = some r →
    ∃ X Y, l.flatMap f = X ++ f r ++ Y ∧ (l.set i r').flatMap f = X ++ f r' ++ Y := by
  intro l
  induction l with
  | nil => intro i r r' h; simp at h
  | cons a t ih =>
    intro i r r' h
    cases i with
    | zero =>
      simp only [List.getElem?_cons_zero, Option.some.injEq] at h
      subst h
      exact ⟨[], t.flatMap f, by simp, by simp⟩
    | succ i =>
      simp only [List.getElem?_cons_succ] at h
      obtain ⟨X, Y, h1, h2⟩ := ih i r r' h
      exact ⟨f a ++ X, Y, by simp [h1], by simp [h2]⟩

theorem perm_of_count {α : Type} [DecidableEq α] {l1 l2 : List α}
    (h : ∀ a, l1.count a = l2.count a) : l1.Perm l2 :=
  List.perm_iff_count.mpr h

/-- Every step of a goroutine conserves the handles: those idle plus those held. -/
theorem Bench.step_perm (exec : Nat → Nat → Option GoError) (b b' : Bench) (i : Nat)
    (h : b.step exec i = .ok b') :
    (b'.pool.conns ++ b'.heldAll).Perm (b.pool.conns ++ b.heldAll) ∧
    b'.pool.maxConn = b.pool.maxConn ∧ b'.reqs.length = b.reqs.length := by
  unfold Bench.step at h
  cases hr : b.reqs[i]? with
  | none =>
    simp only [hr, Except.ok.injEq] at h
    subst h
    exact ⟨List.Perm.refl _, rfl, rfl⟩
  | some r =>
    simp only [hr] at h
    cases r with
    | start =>
      cases hc : b.pool.conns with
      | nil =>
        simp only [Get_nil_empty _ hc, Except.ok.injEq] at h
        subst h
        exact ⟨by rw [hc], rfl, rfl⟩
      | cons c rest =>
        simp only [Get_cons _ _ _ _ hc, Except.ok.injEq] at h
        subst h
        obtain ⟨X, Y, h1, h2⟩ := flatMap_set_split Req.held b.reqs i _ (.acquired c) hr
        refine ⟨?_, rfl, by simp⟩
        simp only [Bench.heldAll, h1, h2, Req.held]
        apply perm_of_count
        intro a
        simp only [List.count_append, List.count_cons, List.count_nil]
        omega
    | acquired c =>
      cases c with
      | none => simp at h
      | some cn =>
        simp only at h
        cases hex : exec cn.db (i + 1) with
        | none =>
          simp only [hex, Except.ok.injEq] at h
          subst h
          obtain ⟨X, Y, h1, h2⟩ :=
            flatMap_set_split Req.held b.reqs i _ (.succLoad (some cn)) hr
          exact ⟨by simp only [Bench.heldAll, h1, h2, Req.held]; exact List.Perm.refl _,
            rfl, by simp⟩
        | some e =>
          simp only [hex, Except.ok.injEq] at h
          subst h
          obtain ⟨X, Y, h1, h2⟩ :=
            flatMap_set_split Req.held b.reqs i _ (.failLoad (some (some cn))) hr
          exact ⟨by simp only [Bench.heldAll, h1, h2, Req.held, Option.toList];
                    exact List.Perm.refl _,
            rfl, by simp⟩
    | failLoad ret =>
      simp only [Except.ok.injEq] at h
      subst h
      obtain ⟨X, Y, h1, h2⟩ :=
        flatMap_set_split Req.held b.reqs i _ (.failStore ret b.connectionFailures) hr
      exact ⟨by simp only [Bench.heldAll, h1, h2, Req.held]; exact List.Perm.refl _,
        rfl, by simp⟩
    | failStore ret v =>
      simp only [Except.ok.injEq] at h
      subst h
      cases ret with
      | none =>
        obtain ⟨X, Y, h1, h2⟩ := flatMap_set_split Req.held b.reqs i _ Req.done hr
        exact ⟨by simp only [Bench.heldAll, h1, h2, Req.held, Option.toList];
                  exact List.Perm.refl _,
          rfl, by simp⟩
      | some c =>
        obtain ⟨X, Y, h1, h2⟩ := flatMap_set_split Req.held b.reqs i _ (.putting c) hr
        exact ⟨by simp only [Bench.heldAll, h1, h2, Req.held, Option.toList];
                  exact List.Perm.refl _,
          rfl, by simp⟩
    | succLoad c =>
      simp only [Except.ok.injEq] at h
      subst h
      obtain ⟨X, Y, h1, h2⟩ :=
        flatMap_set_split Req.held b.reqs i _ (.succStore c b.successfulConnections) hr
      exact ⟨by simp only [Bench.heldAll, h1, h2, Req.held]; exact List.Perm.refl _,
        rfl, by simp⟩
    | succStore c v =>
      simp only [Except.ok.injEq] at h
      subst h
      obtain ⟨X, Y, h1, h2⟩ := flatMap_set_split Req.held b.reqs i _ (.putting c) hr
      exact ⟨by simp only [Bench.heldAll, h1, h2, Req.held]; exact List.Perm.refl _,
        rfl, by simp⟩
    | putting c =>
      simp only [Except.ok.injEq] at h
      subst h
      obtain ⟨X, Y, h1, h2⟩ := flatMap_set_split Req.held b.reqs i _ Req.done hr
      refine ⟨?_, rfl, by simp⟩
      simp only [Bench.heldAll, h1, h2, Req.held, Put]
      apply perm_of_count
      intro a
      simp only [List.count_append, List.count_cons, List.count_nil]
      omega
    | done =>
      simp only [Except.ok.injEq] at h
      subst h
      exact ⟨List.Perm.refl _, rfl, rfl⟩

/-- A step cannot panic when every handle, idle or held, is live. -/
theorem Bench.step_ok (exec : Nat → Nat → Option GoError) (b : Bench) (i : Nat)
    (hlive : ∀ c ∈ b.pool.conns ++ b.heldAll, c ≠ none) :
    ∃ b', b.step exec i = .ok b' := by
  unfold Bench.step
  cases hr : b.reqs[i]? with
  | none => exact ⟨_, rfl⟩
  | some r =>
    cases r with
    | acquired c =>
      cases c with
      | none =>
        exfalso
        refine hlive none ?_ rfl
        apply List.mem_append_right
        exact List.mem_flatMap.mpr ⟨_, List.getElem?_mem hr, by simp [Req.held]⟩
      | some cn =>
        simp only
        cases exec cn.db (i + 1) <;> exact ⟨_, rfl⟩
    | start =>
      simp only
      cases hc : b.pool.conns with
      | nil => rw [Get_nil_empty _ hc]; exact ⟨_, rfl⟩
      | cons c rest => rw [Get_cons _ _ _ _ hc]; exact ⟨_, rfl⟩
    | failLoad ret => exact ⟨_, rfl⟩
    | failStore ret v => exact ⟨_, rfl⟩
    | succLoad c => exact ⟨_, rfl⟩
    | succStore c v => exact ⟨_, rfl⟩
    | putting c => exact ⟨_, rfl⟩
    | done => exact ⟨_, rfl⟩

/-- Under every schedule, a run over live handles never panics and conserves them. -/
theorem Bench.run_ok (exec : Nat → Nat → Option GoError) : ∀ (sched : List Nat) (b : Bench),
    (∀ c ∈ b.pool.conns ++ b.heldAll, c ≠ none) →
    ∃ b', Bench.run exec sched b = .ok b' ∧
      (b'.pool.conns ++ b'.heldAll).Perm (b.pool.conns ++ b.heldAll) ∧
      b'.pool.maxConn = b.pool.maxConn ∧ b'.reqs.length = b.reqs.length := by
  intro sched
  induction sched with
  | nil => intro b _; exact ⟨b, rfl, List.Perm.refl _, rfl, rfl⟩
  | cons i sched ih =>
    intro b hlive
    obtain ⟨b1, hstep⟩ := Bench.step_ok exec b i hlive
    obtain ⟨hp1, hm1, hl1⟩ := Bench.step_perm exec b b1 i hstep
    obtain ⟨b2, hrun, hp2, hm2, hl2⟩ := ih b1 (fun c hc => hlive c (hp1.mem_iff.mp hc))
    exact ⟨b2, by simp only [Bench.run, hstep, hrun], hp2.trans hp1, hm2.trans hm1,
      hl2.trans hl1⟩

/-! ## A nil handle in the store: claim C8 -/

theorem Bench.step_other (exec : Nat → Nat → Option GoError) (b b' : Bench) (j : Nat)
    (h : b.step exec j = .ok b') :
    (∀ i, i ≠ j → b'.reqs[i]? = b.reqs[i]?) ∧ b'.reqs.length = b.reqs.length := by
  unfold Bench.step at h
  split at h
  · cases h; exact ⟨fun _ _ => rfl, rfl⟩
  · split at h
    · cases h; exact ⟨fun _ _ => rfl, rfl⟩
    · split at h <;> cases h <;>
        exact ⟨fun i hi => List.getElem?_set_ne (Ne.symm hi), List.length_set _ _ _⟩
  · split at h
    · cases h
    · split at h <;> cases h <;>
        exact ⟨fun i hi => List.getElem?_set_ne (Ne.symm hi), List.length_set _ _ _⟩
  all_goals first
    | (cases h; exact ⟨fun i hi => List.getElem?_set_ne (Ne.symm hi), List.length_set _ _ _⟩)
    | (cases h; exact ⟨fun _ _ => rfl, rfl⟩)

/-- Once the handle at the front of the store is nil and a request exists, no schedule
lets the run reach its summary: the request that receives the nil handle either never
runs again or panics at `conn.db.Exec`. -/
theorem Bench.nil_front_stuck (exec : Nat → Nat → Option GoError) :
    ∀ (sched : List Nat) (b : Bench), b.reqs ≠ [] →
    ((b.pool.conns.head? = some none ∧ ∀ r ∈ b.reqs, r = Req.start) ∨
      ∃ i : Nat, b.reqs[i]? = some (Req.acquired none)) →
    Bench.run exec sched b = .error Panic.nilPointerDereference ∨
    ∃ b', Bench.run exec sched b = .ok b' ∧ b'.reqs.all (fun r => r == Req.done) = false := by
  intro sched
  induction sched with
  | nil =>
    intro b hne hinv
    refine Or.inr ⟨b, rfl, ?_⟩
    rw [List.all_eq_false]
    rcases hinv with ⟨-, hall⟩ | ⟨i, hi⟩
    · cases hr : b.reqs with
      | nil => exact absurd hr hne
      | cons r t =>
        refine ⟨r, List.mem_cons_self _ _, ?_⟩
        rw [hall r (by rw [hr]; exact List.mem_cons_self _ _)]
        decide
    · exact ⟨_, List.getElem?_mem hi, by decide⟩
  | cons j sched ih =>
    intro b hne hinv
    simp only [Bench.run]
    rcases hinv with ⟨hhead, hall⟩ | ⟨i, hi⟩
    · cases hr : b.reqs[j]? with
      | none =>
        have hstep : b.step exec j = .ok b := by simp [Bench.step, hr]
        rw [hstep]
        exact ih b hne (Or.inl ⟨hhead, hall⟩)
      | some r =>
        have hstart : r = Req.start := hall r (List.getElem?_mem hr)
        subst hstart
        have hj : j < b.reqs.length := by
          by_contra hge
          rw [List.getElem?_eq_none (not_lt.mp hge)] at hr
          cases hr
        cases hc : b.pool.conns with
        | nil => rw [hc] at hhead; cases hhead
        | cons c rest =>
          rw [hc] at hhead
          simp only [List.head?_cons, Option.some.injEq] at hhead
          subst hhead
          have hstep : b.step exec j =
              .ok { b with pool := { b.pool with conns := rest },
                           reqs := b.reqs.set j (Req.acquired none),
                           handed := b.handed ++ [(j, none)] } := by
            simp [Bench.step, hr, Get_cons _ _ _ _ hc]
          rw [hstep]
          refine ih _ ?_ (Or.inr ⟨j, ?_⟩)
          · intro hnil
            have := congrArg List.length hnil
            simp only [List.length_set, List.length_nil] at this
            omega
          · simp [hj]
    · by_cases hji : j = i
      · subst hji
        have hstep : b.step exec j = .error Panic.nilPointerDereference := by
          simp [Bench.step, hi]
        rw [hstep]
        exact Or.inl rfl
      · cases hstep : b.step exec j with
        | error e =>
          left
          unfold Bench.step at hstep
          split at hstep
          · cases hstep
          · split at hstep
            · cases hstep
            · split at hstep <;> cases hstep
          · split at hstep
            · cases hstep; rfl
            · split at hstep <;> cases hstep
          all_goals cases hstep
        | ok b1 =>
          obtain ⟨hother, hlen⟩ := Bench.step_other exec b b1 j hstep
          refine ih b1 ?_ (Or.inr ⟨i, by rw [hother i (Ne.symm hji)]; exact hi⟩)
          intro hnil
          rw [hnil] at hlen
          exact hne (List.length_eq_zero.mp hlen.symm)

/-- C8 (evaluation of the code where the claim fails). With the database unreachable,
`NewCPool 1` returns a pool whose only entry is nil; the single request of
`benchmarkWithPool` receives it from `Get` and panics at `conn.db.Exec`, so the run
aborts before its summary, whatever `Exec` would have returned. More generally, with
a nil handle at the front of the store and at least one request, the run panics as soon
as the first request has taken its first two steps, and under no schedule does
`benchmarkWithPool` return a summary; in particular `main` never prints one when the
database is unreachable. -/
theorem nil_handle_aborts_run :
    NewCPool linuxAmd64 driverDown 0 1 = .ok (⟨[none], 1⟩, none, 1) ∧
    (∀ exec, benchmarkWithPool exec [0, 0] ⟨[none], 1⟩ 1 =
        .error Panic.nilPointerDereference) ∧
    (∀ exec rest (maxConn : Int) (n : Nat),
        benchmarkWithPool exec [0, 0] ⟨none :: rest, maxConn⟩ ((n : Int) + 1) =
          .error Panic.nilPointerDereference) ∧
    (∀ exec sched rest (maxConn : Int) (n : Nat) (r : Summary × cPool),
        benchmarkWithPool exec sched ⟨none :: rest, maxConn⟩ ((n : Int) + 1) ≠ .ok (some r)) ∧
    (∀ exec, main linuxAmd64 driverDown exec [0, 0] = .error Panic.nilPointerDereference) ∧
    (∀ exec sched (r : Summary × cPool),
        main linuxAmd64 driverDown exec sched ≠ .ok (some r)) := by
  have hgen : ∀ exec sched rest (maxConn : Int) (n : Nat) (r : Summary × cPool),
      benchmarkWithPool exec sched ⟨none :: rest, maxConn⟩ ((n : Int) + 1) ≠ .ok (some r) := by
    intro exec sched rest maxConn n r hrun
    have hnat : ((n : Int) + 1).toNat = n + 1 := by omega
    have hstuck := Bench.nil_front_stuck exec sched
      (Bench.init ⟨none :: rest, maxConn⟩ ((n : Int) + 1))
      (by simp [Bench.init, hnat, List.replicate_succ])
      (Or.inl ⟨rfl, by
        intro q hq
        simp only [Bench.init] at hq
        exact List.eq_of_mem_replicate hq⟩)
    unfold benchmarkWithPool at hrun
    rcases hstuck with herr | ⟨b', hok, hnot⟩
    · rw [herr] at hrun
      cases hrun
    · rw [hok] at hrun
      simp only [hnot] at hrun
      cases hrun
  have hpanic : ∀ exec rest (maxConn : Int) (n : Nat),
      benchmarkWithPool exec [0, 0] ⟨none :: rest, maxConn⟩ ((n : Int) + 1) =
        .error Panic.nilPointerDereference := by
    intro exec rest maxConn n
    have hnat : ((n : Int) + 1).toNat = n + 1 := by omega
    simp [benchmarkWithPool, Bench.init, hnat, List.replicate_succ, Bench.run, Bench.step,
      Get_mk_cons]
  have hmain : ∀ exec sched, main linuxAmd64 driverDown exec sched =
      benchmarkWithPool exec sched ⟨none :: List.replicate 9 none, 10⟩ (((999 : Nat) : Int) + 1) :=
    fun _ _ => rfl
  refine ⟨rfl, fun exec => rfl, hpanic, hgen, ?_, ?_⟩
  · intro exec
    rw [hmain]
    exact hpanic exec _ 10 999
  · intro exec sched r
    rw [hmain]
    exact hgen exec sched _ 10 999 r

/-! ## Scenario B: claim C9 -/

theorem heldAll_init (pool : cPool) (n : Int) : (Bench.init pool n).heldAll = [] := by
  simp only [Bench.heldAll, Bench.init]
  induction n.toNat with
  | zero => rfl
  | succ k ih => simp [List.replicate_succ, Req.held]

theorem servedBy_mem (handles : List conn) (j : Nat) (c : conn)
    (h : servedBy handles j = some c) : c ∈ handles :=
  List.getElem?_mem h

/-- C9. Take a pool of pairwise distinct live handles in which the handle `b` fails
`Exec` every time and the others never fail. (1) A request that `Get` handed `b`
increments the failure counter and then `Put`s `b` back at the end of the store.
(2) Under every schedule the run goes on without panic and `b` is in the store or held
by a request. (3) When the `n` requests are served one at a time, request `j` is handed
the handle at position `j mod k`, so `b`, at position `i`, is handed exactly to the
requests `j` with `j mod k = i` (every `k`-th acquisition), the failure count is the
number of requests handed `b`, all other requests succeed, and `b` is back in the store. -/
theorem broken_handle_recirculates (exec : Nat → Nat → Option GoError) (handles : List conn)
    (b : conn) (maxConn : Int) (hb : b ∈ handles) (hdistinct : handles.Nodup)
    (hbad : ∀ r, exec b.db r ≠ none)
    (hgood : ∀ c ∈ handles, c ≠ b → ∀ r, exec c.db r = none) :
    (∀ (st : Bench) (j : Nat), st.reqs[j]? = some (Req.acquired (some b)) →
        Bench.run exec [j, j, j, j] st =
          .ok { st with connectionFailures := st.connectionFailures + 1,
                        pool := Put st.pool (some b),
                        reqs := st.reqs.set j Req.done }) ∧
    (∀ (sched : List Nat) (n : Nat),
        ∃ s, Bench.run exec sched (Bench.init ⟨handles.map some, maxConn⟩ n) = .ok s ∧
          (some b ∈ s.pool.conns ∨ ∃ r ∈ s.reqs, some b ∈ r.held)) ∧
    (∃ i, i < handles.length ∧ handles[i]? = some b ∧
      ∀ n : Nat,
        ∃ s, Bench.run exec (serialSched n) (Bench.init ⟨handles.map some, maxConn⟩ n) = .ok s ∧
          s.reqs = List.replicate n Req.done ∧
          s.handed = (List.range n).map (fun j => (j, servedBy handles j)) ∧
          (∀ j, servedBy handles j = some b ↔ j % handles.length = i) ∧
          s.connectionFailures = (s.handed.filter (fun x => decide (x.2 = some b))).length ∧
          s.connectionFailures = ((List.range n).filter (fun j => j % handles.length = i)).length ∧
          s.successfulConnections + s.connectionFailures = n ∧
          some b ∈ s.pool.conns) := by
  have hne : handles ≠ [] := List.ne_nil_of_mem hb
  have hlen : 0 < handles.length := List.length_pos.mpr hne
  refine ⟨?_, ?_, ?_⟩
  · intro st j hreq
    have hj : j < st.reqs.length := by
      by_contra hge
      rw [List.getElem?_eq_none (not_lt.mp hge)] at hreq
      cases hreq
    cases hex : exec b.db (j + 1) with
    | none => exact absurd hex (hbad _)
    | some e => simp [Bench.run, Bench.step, hreq, hex, hj]
  · intro sched n
    have hlive : ∀ c ∈ (Bench.init ⟨handles.map some, maxConn⟩ n).pool.conns ++
        (Bench.init ⟨handles.map some, maxConn⟩ n).heldAll, c ≠ none := by
      intro c hc
      rw [heldAll_init, List.append_nil] at hc
      simp only [Bench.init, List.mem_map] at hc
      obtain ⟨x, -, rfl⟩ := hc
      exact Option.some_ne_none x
    obtain ⟨s, hrun, hperm, -, -⟩ := Bench.run_ok exec sched _ hlive
    refine ⟨s, hrun, ?_⟩
    have hmem : some b ∈ s.pool.conns ++ s.heldAll := by
      rw [hperm.mem_iff, heldAll_init, List.append_nil]
      exact List.mem_map_of_mem some hb
    rcases List.mem_append.mp hmem with h1 | h1
    · exact Or.inl h1
    · exact Or.inr (List.mem_flatMap.mp h1)
  · obtain ⟨i, hi, hget⟩ := List.getElem_of_mem hb
    have hgeti : handles[i]? = some b := by rw [List.getElem?_eq_getElem hi, hget]
    have hserved : ∀ j, servedBy handles j = some b ↔ j % handles.length = i := by
      intro j
      have hmod : j % handles.length < handles.length := Nat.mod_lt _ hlen
      unfold servedBy
      rw [List.getElem?_eq_getElem hmod, Option.some.injEq, ← hget]
      exact hdistinct.getElem_inj_iff
    have hfails : ∀ j, serialFails exec handles j = decide (servedBy handles j = some b) := by
      intro j
      unfold serialFails
      cases hs : servedBy handles j with
      | none => simp
      | some c =>
        by_cases hcb : c = b
        · subst hcb
          simp only [decide_True]
          cases hex : exec c.db (j + 1) with
          | none => exact absurd hex (hbad _)
          | some e => rfl
        · simp [hgood c (servedBy_mem handles j c hs) hcb, hcb]
    refine ⟨i, hi, hgeti, ?_⟩
    intro n
    have hrun := Bench.serial_run exec handles hne maxConn n n (le_refl n)
    refine ⟨_, by simpa [Bench.init] using hrun, by simp, rfl, hserved, ?_, ?_, ?_, ?_⟩
    · simp only [List.filter_map, List.length_map]
      congr 1
      apply List.filter_congr
      intro j _
      simp [hfails j]
    · show ((List.range n).filter (serialFails exec handles)).length = _
      congr 1
      apply List.filter_congr
      intro j _
      rw [hfails j]
      simp [hserved j]
    · have := List.length_eq_length_filter_add (l := List.range n) (serialFails exec handles)
      simp only [List.length_range] at this
      simp only [Bool.not_eq_true'] at *
      omega
    · simp only
      rw [(List.rotate_perm _ _).mem_iff]
      exact List.mem_map_of_mem some hb

/-- C9, on a pool of three handles whose second one is broken, with seven requests. -/
theorem broken_handle_recirculates_witness :
    (⟨1⟩ : conn) ∈ [(⟨0⟩ : conn), ⟨1⟩, ⟨2⟩] ∧ [(⟨0⟩ : conn), ⟨1⟩, ⟨2⟩].Nodup ∧
    (∀ r, execBroken 1 (⟨1⟩ : conn).db r ≠ none) ∧
    (∀ c ∈ [(⟨0⟩ : conn), ⟨1⟩, ⟨2⟩], c ≠ ⟨1⟩ → ∀ r, execBroken 1 c.db r = none) ∧
    (∃ i, i < [(⟨0⟩ : conn), ⟨1⟩, ⟨2⟩].length ∧ [(⟨0⟩ : conn), ⟨1⟩, ⟨2⟩][i]? = some ⟨1⟩ ∧
      ∀ n : Nat,
        ∃ s, Bench.run (execBroken 1) (serialSched n)
              (Bench.init ⟨[(⟨0⟩ : conn), ⟨1⟩, ⟨2⟩].map some, 3⟩ n) = .ok s ∧
          s.reqs = List.replicate n Req.done ∧
          s.handed = (List.range n).map (fun j => (j, servedBy [(⟨0⟩ : conn), ⟨1⟩, ⟨2⟩] j)) ∧
          (∀ j, servedBy [(⟨0⟩ : conn), ⟨1⟩, ⟨2⟩] j = some ⟨1⟩ ↔
            j % [(⟨0⟩ : conn), ⟨1⟩, ⟨2⟩].length = i) ∧
          s.connectionFailures =
            (s.handed.filter (fun x => decide (x.2 = some ⟨1⟩))).length ∧
          s.connectionFailures =
            ((List.range n).filter
              (fun j => j % [(⟨0⟩ : conn), ⟨1⟩, ⟨2⟩].length = i)).length ∧
          s.successfulConnections + s.connectionFailures = n ∧
          some ⟨1⟩ ∈ s.pool.conns) ∧
    Bench.run (execBroken 1) (serialSched 7) (Bench.init pool3 7) =
      .ok { pool := ⟨[some ⟨1⟩, some ⟨2⟩, some ⟨0⟩], 3⟩,
            connectionFailures := 2, successfulConnections := 5,
            reqs := List.replicate 7 Req.done,
            handed := [(0, some ⟨0⟩), (1, some ⟨1⟩), (2, some ⟨2⟩), (3, some ⟨0⟩),
                       (4, some ⟨1⟩), (5, some ⟨2⟩), (6, some ⟨0⟩)] } := by
  have hb : (⟨1⟩ : conn) ∈ [(⟨0⟩ : conn), ⟨1⟩, ⟨2⟩] := by decide
  have hd : [(⟨0⟩ : conn), ⟨1⟩, ⟨2⟩].Nodup := by decide
  have hbad : ∀ r, execBroken 1 (⟨1⟩ : conn).db r ≠ none := by
    intro r; simp [execBroken]
  have hgood : ∀ c ∈ [(⟨0⟩ : conn), ⟨1⟩, ⟨2⟩], c ≠ ⟨1⟩ → ∀ r, execBroken 1 c.db r = none := by
    intro c hc hne r
    simp only [List.mem_cons, List.mem_singleton, List.mem_nil_iff, or_false] at hc
    rcases hc with rfl | rfl | rfl
    · rfl
    · exact absurd rfl hne
    · rfl
  exact ⟨hb, hd, hbad, hgood,
    (broken_handle_recirculates (execBroken 1) [⟨0⟩, ⟨1⟩, ⟨2⟩] ⟨1⟩ 3 hb hd hbad hgood).2.2, rfl⟩

/-! ## Scenario A when the requests do not overlap -/

/-- When the requests are served one at a time over `k ≥ 1` live handles on which `Exec`
never fails, `benchmarkWithPool` with `n ≥ 1` requests reports `n` successes and no
failure, and the store holds the initial handles (rotated by `n`). -/
theorem serial_scenario_A (exec : Nat → Nat → Option GoError) (handles : List conn)
    (maxConn : Int) (n : Nat) (hne : handles ≠ []) (hn : 1 ≤ n)
    (hgood : ∀ c ∈ handles, ∀ r, exec c.db r = none) :
    benchmarkWithPool exec (serialSched n) ⟨handles.map some, maxConn⟩ n =
      .ok (some ({ totalRequests := n, successfulConnections := n, connectionFailures := 0 },
                 ⟨(handles.map some).rotate n, maxConn⟩)) := by
  have hfails : ∀ j, serialFails exec handles j = false := by
    intro j
    unfold serialFails
    cases hs : servedBy handles j with
    | none => rfl
    | some c => simp [hgood c (servedBy_mem handles j c hs)]
  have hrun := Bench.serial_run exec handles hne maxConn n n (le_refl n)
  have hn0 : (n : Int) ≠ 0 := by omega
  unfold benchmarkWithPool
  simp only [Bench.init, Int.toNat_ofNat, hrun, Nat.sub_self, List.replicate_zero,
    List.append_nil, hn0, if_false]
  have hall : (List.replicate n Req.done).all (fun r => r == Req.done) = true := by
    rw [List.all_eq_true]
    intro r hr
    rw [List.eq_of_mem_replicate hr]
    decide
  have hf : (List.range n).filter (serialFails exec handles) = [] := by
    rw [List.filter_eq_nil_iff]
    intro j _
    simp [hfails j]
  have hs : (List.range n).filter (fun j => !serialFails exec handles j) = List.range n := by
    rw [List.filter_eq_self]
    intro j _
    simp [hfails j]
  simp only [hall, if_true, hf, hs, List.length_nil, List.length_range]

/-- Go `main` (ten handles, a thousand requests) when the database is up, every `Exec`
succeeds and the requests are served one at a time. -/
theorem serial_scenario_A_main :
    main linuxAmd64 driverUp execOk (serialSched 1000) =
      .ok (some ({ totalRequests := 1000, successfulConnections := 1000,
                   connectionFailures := 0 },
                 ⟨(List.range 10).map (fun k => some ⟨k⟩), 10⟩)) := by
  show benchmarkWithPool execOk (serialSched 1000)
        ⟨(List.range 10).map (fun k => some ⟨k⟩), 10⟩ 1000 = _
  have h := serial_scenario_A execOk ((List.range 10).map (fun k => (⟨k⟩ : conn))) 10 1000
    (by decide) (by decide) (fun _ _ _ => rfl)
  have hrot : (((List.range 10).map (fun k => (⟨k⟩ : conn))).map some).rotate 1000 =
      (List.range 10).map (fun k => some (⟨k⟩ : conn)) := by
    rw [← List.rotate_mod]
    rfl
  rw [hrot] at h
  simpa using h

/-! ## Overlapping requests -/

/-- Requests `a, ..., a + n - 1` served one at a time from any state whose store holds
live handles on which `Exec` never fails: `n` more successes, no more failures. -/
theorem Bench.serve_range (exec : Nat → Nat → Option GoError) (hs : List conn)
    (hne : hs ≠ []) (hgood : ∀ c ∈ hs, ∀ r, exec c.db r = none) (a : Nat) (b : Bench)
    (hconns : b.pool.conns.Perm (hs.map some)) : ∀ n : Nat,
    (∀ j, a ≤ j → j < a + n → b.reqs[j]? = some Req.start) →
    ∃ s, Bench.run exec ((List.range n).flatMap (fun j => List.replicate 5 (a + j))) b = .ok s ∧
      s.successfulConnections = b.successfulConnections + n ∧
      s.connectionFailures = b.connectionFailures ∧
      s.pool.conns.Perm (hs.map some) ∧
      s.pool.maxConn = b.pool.maxConn ∧
      (∀ j, s.reqs[j]? = if a ≤ j ∧ j < a + n then some Req.done else b.reqs[j]?) := by
  intro n
  induction n with
  | zero =>
    intro _
    refine ⟨b, rfl, rfl, rfl, hconns, rfl, ?_⟩
    intro j
    have : ¬ (a ≤ j ∧ j < a) := by omega
    simp [this]
  | succ n ih =>
    intro hstart
    obtain ⟨s, hrun, hsucc, hfail, hperm, hmax, hreqs⟩ :=
      ih (fun j h1 h2 => hstart j h1 (by omega))
    have hreq : s.reqs[a + n]? = some Req.start := by
      rw [hreqs (a + n)]
      have : ¬ (a ≤ a + n ∧ a + n < a + n) := by omega
      simp only [this, if_false]
      exact hstart (a + n) (by omega) (by omega)
    have hlt : a + n < s.reqs.length := by
      by_contra hge
      rw [List.getElem?_eq_none (not_lt.mp hge)] at hreq
      cases hreq
    obtain ⟨c, rest, hc, hcmem⟩ : ∃ c rest, s.pool.conns = some c :: rest ∧ c ∈ hs := by
      cases hl : s.pool.conns with
      | nil =>
        rw [hl] at hperm
        have := hperm.length_eq
        simp only [List.length_nil, List.length_map] at this
        exact absurd (List.length_eq_zero.mp this.symm) hne
      | cons x rest =>
        have hx : x ∈ hs.map some := hperm.mem_iff.mp (by rw [hl]; exact List.mem_cons_self _ _)
        obtain ⟨c, hcmem, rfl⟩ := List.mem_map.mp hx
        exact ⟨c, rest, rfl, hcmem⟩
    have hone := Bench.serve_one exec s (a + n) c rest hreq hc
    simp only [hgood c hcmem, Option.isSome_none, Bool.false_eq_true, if_false,
      Nat.add_zero] at hone
    refine ⟨{ pool := { conns := rest ++ [some c], maxConn := s.pool.maxConn },
              connectionFailures := s.connectionFailures,
              successfulConnections := s.successfulConnections + 1,
              reqs := s.reqs.set (a + n) Req.done,
              handed := s.handed ++ [(a + n, some c)] }, ?_, ?_, ?_, ?_, ?_, ?_⟩
    · rw [List.range_succ, List.flatMap_append, Bench.run_append, hrun]
      simp only [List.flatMap_cons, List.flatMap_nil, List.append_nil]
      exact hone
    · simp only [hsucc]; omega
    · exact hfail
    · refine List.Perm.trans ?_ hperm
      rw [hc]
      simp
    · exact hmax
    · intro j
      simp only [List.getElem?_set, hlt, if_true]
      by_cases hj : a + n = j
      · subst hj
        have : a ≤ a + n ∧ a + n < a + (n + 1) := by omega
        simp [this]
      · simp only [hj, if_false, hreqs j]
        by_cases hin : a ≤ j ∧ j < a + n
        · have : a ≤ j ∧ j < a + (n + 1) := by omega
          simp [hin, this]
        · have : ¬ (a ≤ j ∧ j < a + (n + 1)) := by omega
          simp [hin, this]

/-- Two requests whose steps alternate, each holding one of two live handles on which
`Exec` succeeds: both load the success counter before either stores, so it advances
by one only. -/
theorem Bench.overlap_two (exec : Nat → Nat → Option GoError) (b : Bench) (c0 c1 : conn)
    (rest : List ConnPtr) (tail : List Req)
    (hreqs : b.reqs = Req.start :: Req.start :: tail)
    (hconns : b.pool.conns = some c0 :: some c1 :: rest)
    (h0 : exec c0.db 1 = none) (h1 : exec c1.db 2 = none) :
    Bench.run exec [0, 1, 0, 1, 0, 1, 0, 1, 0, 1] b =
      .ok { pool := { b.pool with conns := rest ++ [some c0, some c1] },
            connectionFailures := b.connectionFailures,
            successfulConnections := b.successfulConnections + 1,
            reqs := Req.done :: Req.done :: tail,
            handed := b.handed ++ [(0, some c0), (1, some c1)] } := by
  simp [Bench.run, Bench.step, hreqs, Get_cons _ _ _ _ hconns, Get_mk_cons, h0, h1, Put]

/-- With at least two live handles on which `Exec` never fails and at least two requests,
there is a schedule under which `benchmarkWithPool` completes and reports one success
fewer than the number of requests. -/
theorem lost_update_general (exec : Nat → Nat → Option GoError) (c0 c1 : conn)
    (more : List conn) (maxConn : Int) (n : Nat)
    (hgood : ∀ c ∈ c0 :: c1 :: more, ∀ r, exec c.db r = none) :
    ∃ r, benchmarkWithPool exec (overlapSched (n + 2))
          ⟨(c0 :: c1 :: more).map some, maxConn⟩ ((n : Int) + 2) = .ok (some r) ∧
      r.1.totalRequests = (n : Int) + 2 ∧
      r.1.successfulConnections = n + 1 ∧
      r.1.connectionFailures = 0 ∧
      r.2.conns.Perm ((c0 :: c1 :: more).map some) ∧
      r.2.maxConn = maxConn := by
  have hnat : ((n : Int) + 2).toNat = n + 2 := by omega
  have hfirst : Bench.run exec [0, 1, 0, 1, 0, 1, 0, 1, 0, 1]
      (Bench.init ⟨(c0 :: c1 :: more).map some, maxConn⟩ ((n : Int) + 2)) =
      .ok { pool := { conns := more.map some ++ [some c0, some c1], maxConn := maxConn },
            connectionFailures := 0, successfulConnections := 0 + 1,
            reqs := Req.done :: Req.done :: List.replicate n Req.start,
            handed := [] ++ [(0, some c0), (1, some c1)] } :=
    Bench.overlap_two exec
      (Bench.init ⟨(c0 :: c1 :: more).map some, maxConn⟩ ((n : Int) + 2)) c0 c1
      (more.map some) (List.replicate n Req.start)
      (by simp [Bench.init, hnat, List.replicate_succ]) rfl
      (hgood c0 (by simp) 1) (hgood c1 (by simp) 2)
  obtain ⟨s, hrun, hsucc, hfail, hperm, hmax, hreqs⟩ :=
    Bench.serve_range exec (c0 :: c1 :: more) (by simp) hgood 2
      { pool := { conns := more.map some ++ [some c0, some c1], maxConn := maxConn },
        connectionFailures := 0, successfulConnections := 0 + 1,
        reqs := Req.done :: Req.done :: List.replicate n Req.start,
        handed := [] ++ [(0, some c0), (1, some c1)] }
      (show List.Perm (more.map some ++ [some c0, some c1]) ((c0 :: c1 :: more).map some) by
        simpa using List.perm_append_comm) n
      (by
        intro j hj1 hj2
        obtain ⟨j', rfl⟩ : ∃ j', j = j' + 2 := ⟨j - 2, by omega⟩
        simp only [List.getElem?_cons_succ]
        exact List.getElem?_replicate_of_lt (by omega))
  have hall : s.reqs.all (fun r => r == Req.done) = true := by
    rw [List.all_eq_true]
    intro q hq
    obtain ⟨j, hj⟩ := List.mem_iff_getElem?.mp hq
    rw [hreqs j] at hj
    by_cases hin : 2 ≤ j ∧ j < 2 + n
    · simp only [hin, and_self, if_true, Option.some.injEq] at hj
      subst hj; decide
    · simp only [hin, if_false] at hj
      have hj2 : j < 2 ∨ 2 + n ≤ j := by omega
      rcases hj2 with hlt | hge
      · have hcases : j = 0 ∨ j = 1 := by omega
        rcases hcases with rfl | rfl
        · simp only [List.getElem?_cons_zero, Option.some.injEq] at hj
          subst hj; decide
        · simp only [List.getElem?_cons_succ, List.getElem?_cons_zero,
            Option.some.injEq] at hj
          subst hj; decide
      · obtain ⟨j', rfl⟩ : ∃ j', j = j' + 2 := ⟨j - 2, by omega⟩
        simp only [List.getElem?_cons_succ] at hj
        rw [List.getElem?_eq_none (by simp; omega)] at hj
        cases hj
  have hn0 : ((n : Int) + 2) ≠ 0 := by omega
  refine ⟨({ totalRequests := (n : Int) + 2, successfulConnections := s.successfulConnections,
             connectionFailures := s.connectionFailures }, s.pool), ?_, rfl, ?_, ?_, hperm, ?_⟩
  · unfold benchmarkWithPool overlapSched
    rw [Bench.run_append, hfirst]
    simp only [Nat.add_sub_cancel, hrun, hall, if_true, hn0, if_false]
  · simp only [hsucc, Bench.init]; omega
  · simp only [hfail, Bench.init]
  · simp only [hmax]

/-! ## Scenario A: claim C10 -/

/-- C10 (evaluation of the code where the claim fails). Two live handles, two requests,
every `Exec` succeeds. Under the schedule in which the two goroutines alternate, both
load `successfulConnections = 0` before either stores, both store 1, and the summary
reports 1 successful request out of 2 (0 failures, both handles back in the store).
In `main` (ten handles, a thousand requests), with the database up and the first two
requests overlapping in the same way, the summary reports 999 successes. -/
theorem lost_update_of_success_counter :
    NewCPool linuxAmd64 driverUp 0 2 = .ok (pool2, none, 2) ∧
    benchmarkWithPool execOk [0, 1, 0, 1, 0, 1, 0, 1, 0, 1] pool2 2 =
      .ok (some ({ totalRequests := 2, successfulConnections := 1, connectionFailures := 0 },
                 pool2)) ∧
    NewCPool linuxAmd64 driverUp 0 10 =
      .ok (⟨(List.range 10).map (fun k => some ⟨k⟩), 10⟩, none, 10) ∧
    ∃ r, main linuxAmd64 driverUp execOk (overlapSched 1000) = .ok (some r) ∧
      r.1.totalRequests = 1000 ∧
      r.1.successfulConnections = 999 ∧
      r.1.connectionFailures = 0 ∧
      r.2.conns.Perm ((List.range 10).map (fun k => some ⟨k⟩)) ∧
      r.2.maxConn = 10 := by
  refine ⟨rfl, rfl, rfl, ?_⟩
  obtain ⟨r, h1, h2, h3, h4, h5, h6⟩ := lost_update_general execOk ⟨0⟩ ⟨1⟩
    ((List.range 8).map (fun k => (⟨k + 2⟩ : conn))) 10 998 (fun _ _ _ => rfl)
  exact ⟨r, h1, h2, h3, h4, h5, h6⟩

end ConnPool
